import Mathlib

/-!
Verification of the spotify-tidal-downloader repository.

This file gives a shallow embedding, in Lean 4, of the pure core of the
repository:

* `src/app/utils.py`       — `normalize`, `remove_accents`, `format_text_for_os`
* `src/app/matching.py`    — `custom_clean_title`, `cleanse_track`,
                             `is_song_edit`, `is_collection`, `compare_results`
* `src/app/constants.py`   — the keyword lists and error markers
* `src/app/spotify_tidal_downloader.py`
                           — `_sync_tracks`, `_process_track`,
                             `_cache_failed_song`, the candidate loop of
                             `_match_track`, and a transition system for the
                             cache-mutating operations of one run.

Strings are modelled by Lean `String` (a list of unicode characters, as in
Python).  External behaviour that is not part of this repository (Python's
`str.lower`, `unicodedata` NFD decomposition, and the functions imported from
the third-party `music_metadata_filter` package) is modelled from the spec, as
marked in the doc comment of each such definition.
-/

namespace App

/-! ### Enumerations (`src/app/types.py`)

`MatchType` and `TrackFindType` are classes of distinct string constants in
the source; all code only tests them for equality, so inductives are a
faithful model. -/

/-- `MatchType` from `src/app/types.py`: match strength classifications. -/
inductive MatchType where
  | EXACT
  | SUBSTRING
  | SKIP
  | NONE
deriving DecidableEq, Repr

/-- `TrackFindType` from `src/app/types.py`: fields compared between tracks. -/
inductive TrackFindType where
  | TITLE
  | ARTIST
  | ARTISTS_ALL
  | ALBUM
deriving DecidableEq, Repr

/-! ### Character-level model of Python string primitives

`str.lower`, `unicodedata.normalize("NFD", ·)` and `unicodedata.category`
are Python standard-library behaviour, external to this repository.  They are
modelled from the spec ("case-folds and strips diacritics … Unicode canonical
decomposition, drop combining marks") by finite character tables with the
identity as default; the tables cover ASCII and the common Latin accented
letters and satisfy the same closure laws as the full Unicode tables
(the lowercase image is fixed by lowercasing; canonical decomposition of a
lowercase letter is a lowercase base letter followed by combining marks). -/

/-- Modelled from the spec: the lowercase table of Python `str.lower`
(ASCII letters plus common Latin accented capitals); identity elsewhere. -/
def lowerMap : List (Char × Char) :=
  [('A', 'a'), ('B', 'b'), ('C', 'c'), ('D', 'd'), ('E', 'e'), ('F', 'f'),
   ('G', 'g'), ('H', 'h'), ('I', 'i'), ('J', 'j'), ('K', 'k'), ('L', 'l'),
   ('M', 'm'), ('N', 'n'), ('O', 'o'), ('P', 'p'), ('Q', 'q'), ('R', 'r'),
   ('S', 's'), ('T', 't'), ('U', 'u'), ('V', 'v'), ('W', 'w'), ('X', 'x'),
   ('Y', 'y'), ('Z', 'z'),
   ('Á', 'á'), ('À', 'à'), ('Â', 'â'), ('Ä', 'ä'), ('Å', 'å'),
   ('É', 'é'), ('È', 'è'), ('Ê', 'ê'), ('Ë', 'ë'),
   ('Í', 'í'), ('Ì', 'ì'), ('Î', 'î'), ('Ï', 'ï'),
   ('Ó', 'ó'), ('Ò', 'ò'), ('Ô', 'ô'), ('Ö', 'ö'), ('Ø', 'ø'),
   ('Ú', 'ú'), ('Ù', 'ù'), ('Û', 'û'), ('Ü', 'ü'),
   ('Ç', 'ç'), ('Ñ', 'ñ'), ('Ý', 'ý')]

/-- Modelled from the spec: Unicode canonical decomposition (NFD) restricted
to the lowercase accented letters of the model; identity elsewhere.  Each
entry decomposes into a plain base letter followed by a combining mark. -/
def nfdMap : List (Char × List Char) :=
  [('á', ['a', '́']), ('à', ['a', '̀']), ('â', ['a', '̂']),
   ('ä', ['a', '̈']), ('å', ['a', '̊']),
   ('é', ['e', '́']), ('è', ['e', '̀']), ('ê', ['e', '̂']),
   ('ë', ['e', '̈']),
   ('í', ['i', '́']), ('ì', ['i', '̀']), ('î', ['i', '̂']),
   ('ï', ['i', '̈']),
   ('ó', ['o', '́']), ('ò', ['o', '̀']), ('ô', ['o', '̂']),
   ('ö', ['o', '̈']),
   ('ú', ['u', '́']), ('ù', ['u', '̀']), ('û', ['u', '̂']),
   ('ü', ['u', '̈']),
   ('ç', ['c', '̧']), ('ñ', ['n', '̃']), ('ý', ['y', '́'])]

/-- Modelled from the spec: the combining marks (Unicode category `Mn`)
occurring in the decomposition table. -/
def mnChars : List Char :=
  ['̀', '́', '̂', '̃', '̈', '̊', '̧']

/-- Whitespace as stripped by Python `str.strip()` (modelled subset). -/
def isSpacePy (c : Char) : Bool :=
  c = ' ' || c = '\t' || c = '\n' || c = '\u000B' || c = '\u000C' || c = '\r'

/-- One character of Python `str.lower` (table lookup, identity default). -/
def lowerChar (c : Char) : Char := (lowerMap.lookup c).getD c

/-- Canonical decomposition of one character (table lookup, identity default). -/
def nfdChar (c : Char) : List Char := (nfdMap.lookup c).getD [c]

/-- Whether a character is a combining mark (category `Mn`) in the model. -/
def isMn (c : Char) : Bool := mnChars.contains c

/-- List form of `str.lower`. -/
def lowerList (l : List Char) : List Char := l.map lowerChar

/-- List form of `remove_accents` (src/app/utils.py lines 26-31): NFD
decomposition, keeping the characters whose category is not `Mn`. -/
def raList (l : List Char) : List Char :=
  (l.flatMap nfdChar).filter (fun c => !(isMn c))

/-- A character fixed by both lowercasing and decomposition. -/
def charFixed (c : Char) : Bool := (lowerChar c == c) && (nfdChar c == [c])

/-- Every character of the list is a combining mark or fixed by the
normalization primitives.  This is the closure law of the character tables
that drives the idempotence of `normalize`. -/
def goodList (l : List Char) : Bool := l.all (fun d => isMn d || charFixed d)

/-- Right strip: drop the trailing characters satisfying `p`. -/
def rstripList (p : Char → Bool) (l : List Char) : List Char :=
  (l.reverse.dropWhile p).reverse

/-- Python `text.strip(chars)` on lists: drop the characters satisfying `p`
from both ends. -/
def stripList (p : Char → Bool) (l : List Char) : List Char :=
  rstripList p (l.dropWhile p)

/-- Python `str.lower`, on `String`. -/
def pyLower (s : String) : String := String.mk (lowerList s.data)

/-- Python `str.casefold`, used by `is_song_edit` / `is_collection` /
`_match_track`.  Modelled from the spec: it agrees with `str.lower` on the
characters of the model tables. -/
def casefold (s : String) : String := pyLower s

/-- `remove_accents` from `src/app/utils.py` lines 26-31. -/
def remove_accents (s : String) : String := String.mk (raList s.data)

/-- Python `str.strip()`, on `String`. -/
def pyStrip (s : String) : String := String.mk (stripList isSpacePy s.data)

/-- `normalize` from `src/app/utils.py` lines 34-38:
`s = remove_accents(s.lower()); return s.strip()`. -/
def normalize (s : String) : String := pyStrip (remove_accents (pyLower s))

/-! ### `_sync_tracks` (src/app/spotify_tidal_downloader.py lines 85-118)

The two caches are modelled as association lists (Python dicts keyed by
`full_title`; values are the cached payloads, irrelevant to key membership,
hence type parameters).  The code returns immediately when the completed map
is empty or the sync policy is off; otherwise it deletes from each map every
key absent from the set of current playlist `full_title`s, which on an
association list is a filter.  File deletion is I/O and is not modelled. -/

/-- `_sync_tracks`: prune both caches against the current playlist keys.
Mirrors the early return `if not self.completed_downloads or not CONFIG_SYNC`.
The failed-map loop is guarded by `if self.failed_downloads:` in the source,
which coincides with the filter below (filtering an empty list is a no-op). -/
def sync_tracks {α β : Type} (cfgSync : Bool)
    (completed : List (String × α)) (failed : List (String × β))
    (current : List String) : List (String × α) × List (String × β) :=
  if completed.isEmpty || !cfgSync then (completed, failed)
  else (completed.filter (fun kv => current.elem kv.1),
        failed.filter (fun kv => current.elem kv.1))

end App

namespace App

/-! ### Text-rewrite scanners for `custom_clean_title`
(src/app/matching.py lines 20-67)

`custom_clean_title` is a fixed chain of `re.sub` calls.  Each call is
embedded as a left-to-right scan (`subScan`) that at every position attempts
to match the rule's pattern; on a match the matched characters are replaced
and scanning resumes after the match (Python `re.sub` non-overlapping
semantics), otherwise the scan advances one character.  The previous original
character is threaded through for the `\b` word-boundary assertions. -/

/-- One `re.sub` pass.  `f prev l` attempts a match at the head of `l` given
the previous original character; it returns the replacement text, the last
consumed original character (the new `prev`) and the rest of the input.
Every rule consumes at least one character, so the input length bounds the
number of steps. -/
def subScanAux (f : Option Char → List Char → Option (List Char × Char × List Char)) :
    Nat → Option Char → List Char → List Char
  | 0, _, l => l
  | _ + 1, _, [] => []
  | fuel + 1, prev, c :: t =>
    match f prev (c :: t) with
    | some (rep, last, rest) => rep ++ subScanAux f fuel (some last) rest
    | none => c :: subScanAux f fuel (some c) t

/-- Run a `re.sub` pass over a whole list of characters. -/
def subScan (f : Option Char → List Char → Option (List Char × Char × List Char))
    (l : List Char) : List Char :=
  subScanAux f l.length none l

/-- Package a match of the rule: `l` is the original input at the match
position, `rest` the input after the match, `rep` the replacement. -/
def mkMatch (l rest rep : List Char) : Option (List Char × Char × List Char) :=
  some (rep, (l.take (l.length - rest.length)).getLastD ' ', rest)

/-- Case-insensitive literal prefix: `pat` is given in lowercase; on success
return the input after the literal. -/
def ciStarts : List Char → List Char → Option (List Char)
  | [], l => some l
  | _ :: _, [] => none
  | p :: ps, c :: cs => if lowerChar c = p then ciStarts ps cs else none

/-- Word characters for the `\b` assertion (modelled: ASCII alphanumerics,
underscore, and the accented letters of the character tables). -/
def isWordChar (c : Char) : Bool :=
  c.isAlpha || c.isDigit || c = '_'
    || (lowerMap.lookup c).isSome || (nfdMap.lookup c).isSome

/-- Whether the previous character makes `\b` fail before a word character. -/
def prevIsWord : Option Char → Bool
  | some p => isWordChar p
  | none => false

/-- `\s+` (greedy): require one whitespace character, consume the run. -/
def wsPlus : List Char → Option (List Char)
  | c :: t => if isSpacePy c then some (t.dropWhile isSpacePy) else none
  | [] => none

/-- Opening brackets `[\(\[\{]`. -/
def isOpener (c : Char) : Bool := c = '(' || c = '[' || c = '{'

/-- Closing brackets `[\)\]\}]`. -/
def isCloser (c : Char) : Bool := c = ')' || c = ']' || c = '}'

/-- Lazy `.*?` up to the first character satisfying `isC`; `.` does not match
a newline, so a newline aborts.  Returns the input after that character. -/
def upToAny (isC : Char → Bool) : List Char → Option (List Char)
  | [] => none
  | c :: t => if isC c then some t else if c = '\n' then none else upToAny isC t

/-- Lazy `(.*?)` up to the first closing bracket, also returning the captured
inner text. -/
def innerToCloser : List Char → Option (List Char × List Char)
  | [] => none
  | c :: t =>
    if isCloser c then some ([], t)
    else if c = '\n' then none
    else
      match innerToCloser t with
      | some (inner, rest) => some (c :: inner, rest)
      | none => none

/-- `(?:with|feat\.?|featuring)\s+` with the regex alternation order and the
greedy optional dot; returns the input after the whitespace run. -/
def featAlt (l : List Char) : Option (List Char) :=
  (ciStarts ['w', 'i', 't', 'h'] l >>= wsPlus) <|>
  (ciStarts ['f', 'e', 'a', 't'] l >>= fun r =>
    (match r with
     | '.' :: r2 => wsPlus r2 <|> wsPlus r
     | _ => wsPlus r)) <|>
  (ciStarts ['f', 'e', 'a', 't', 'u', 'r', 'i', 'n', 'g'] l >>= wsPlus)

/-- Rule `[\(\[\{]\s*(?:with|feat\.?|featuring)\s+.*?[\)\]\}]` (IGNORECASE),
removed: a bracketed "with/feat/featuring" credit. -/
def tryBracketFeat (_ : Option Char) (l : List Char) :
    Option (List Char × Char × List Char) :=
  match l with
  | [] => none
  | b :: t =>
    if isOpener b then
      match featAlt (t.dropWhile isSpacePy) with
      | some r =>
        match upToAny isCloser r with
        | some rest => mkMatch l rest []
        | none => none
      | none => none
    else none

/-- After an inline feature keyword: `\s+[^-()]+` (both greedy).  The
combined consumption is one whitespace character followed by the maximal run
of characters other than `-`, `(`, `)`, which must be non-empty. -/
def afterKwBody (kwLen : Nat) (l : List Char) :
    Option (List Char × Char × List Char) :=
  match l.drop kwLen with
  | w :: t1 =>
    if isSpacePy w then
      let body := t1.takeWhile (fun c => !(c = '-' || c = '(' || c = ')'))
      if body.isEmpty then none
      else mkMatch l (t1.drop body.length) []
    else none
  | [] => none

/-- Rule `\b(?:feat\.?|ft\.?|featuring)\s+[^-()]+` (IGNORECASE), removed:
an inline feature credit outside brackets. -/
def tryInlineFeat (prev : Option Char) (l : List Char) :
    Option (List Char × Char × List Char) :=
  if prevIsWord prev then none
  else
    (ciStarts ['f', 'e', 'a', 't'] l >>= fun r =>
      (match r with
       | '.' :: _ => afterKwBody 5 l <|> afterKwBody 4 l
       | _ => afterKwBody 4 l)) <|>
    (ciStarts ['f', 't'] l >>= fun r =>
      (match r with
       | '.' :: _ => afterKwBody 3 l <|> afterKwBody 2 l
       | _ => afterKwBody 2 l)) <|>
    (ciStarts ['f', 'e', 'a', 't', 'u', 'r', 'i', 'n', 'g'] l >>= fun _ =>
      afterKwBody 9 l)

/-- `remaster(ed)?\)` at the head of the input (greedy optional `ed`). -/
def remTail (l : List Char) : Option (List Char) :=
  match ciStarts ['r', 'e', 'm', 'a', 's', 't', 'e', 'r'] l with
  | some r =>
    (match ciStarts ['e', 'd'] r with
     | some r2 =>
       (match r2 with
        | ')' :: r3 => some r3
        | _ => match r with
               | ')' :: r3 => some r3
               | _ => none)
     | none =>
       match r with
       | ')' :: r3 => some r3
       | _ => none)
  | none => none

/-- Greedy `.*remaster(ed)?\)`: prefer the latest position on the line where
`remaster(ed)?\)` matches (a newline stops the search, as `.` cannot cross
it). -/
def findRemClose : List Char → Option (List Char)
  | [] => none
  | c :: t =>
    if c = '\n' then none
    else
      match findRemClose t with
      | some r => some r
      | none => remTail (c :: t)

/-- Rule `\(.*remaster(ed)?\)` (IGNORECASE), removed. -/
def tryParenRemaster (_ : Option Char) (l : List Char) :
    Option (List Char × Char × List Char) :=
  match l with
  | '(' :: t =>
    match findRemClose t with
    | some rest => mkMatch l rest []
    | none => none
  | _ => none

/-- `\b` after a literal: the next character must not be a word character. -/
def boundaryOk : List Char → Bool
  | [] => true
  | c :: _ => !(isWordChar c)

/-- Rule `\bremaster(ed)?\b` (IGNORECASE), removed. -/
def tryBareRemaster (prev : Option Char) (l : List Char) :
    Option (List Char × Char × List Char) :=
  if prevIsWord prev then none
  else
    match ciStarts ['r', 'e', 'm', 'a', 's', 't', 'e', 'r'] l with
    | some r =>
      (match ciStarts ['e', 'd'] r with
       | some r2 =>
         if boundaryOk r2 then mkMatch l r2 []
         else if boundaryOk r then mkMatch l r []
         else none
       | none => if boundaryOk r then mkMatch l r [] else none)
    | none => none

/-- Rule `radio edit|single version|album version|version` (IGNORECASE),
removed; plain alternation with no word boundaries, tried in order. -/
def tryVersionWords (_ : Option Char) (l : List Char) :
    Option (List Char × Char × List Char) :=
  (ciStarts "radio edit".data l >>= fun r => mkMatch l r []) <|>
  (ciStarts "single version".data l >>= fun r => mkMatch l r []) <|>
  (ciStarts "album version".data l >>= fun r => mkMatch l r []) <|>
  (ciStarts "version".data l >>= fun r => mkMatch l r [])

/-- Rule `\s*[-–]\s*from\s+.*` (IGNORECASE), removed: a "- from X" suffix up
to the end of the line. -/
def tryDashFrom (_ : Option Char) (l : List Char) :
    Option (List Char × Char × List Char) :=
  match l.dropWhile isSpacePy with
  | d :: t =>
    if d = '-' || d = '–' then
      match ciStarts ['f', 'r', 'o', 'm'] (t.dropWhile isSpacePy) with
      | some r =>
        match wsPlus r with
        | some r2 => mkMatch l (r2.dropWhile (fun c => !(c = '\n'))) []
        | none => none
      | none => none
    else none
  | [] => none

/-- Rules `\(from\s+.*?\)` and `\[from\s+.*?\]` (IGNORECASE), removed. -/
def tryParenFrom (opener closer : Char) (_ : Option Char) (l : List Char) :
    Option (List Char × Char × List Char) :=
  match l with
  | c :: t =>
    if c = opener then
      match ciStarts ['f', 'r', 'o', 'm'] t with
      | some r =>
        match wsPlus r with
        | some r2 =>
          match upToAny (fun x => x = closer) r2 with
          | some rest => mkMatch l rest []
          | none => none
        | none => none
      | none => none
    else none
  | [] => none

/-- Rule `\s*[-–]\s*`, replaced by a single space: separator normalization. -/
def tryDashSpace (_ : Option Char) (l : List Char) :
    Option (List Char × Char × List Char) :=
  match l.dropWhile isSpacePy with
  | d :: t =>
    if d = '-' || d = '–' then mkMatch l (t.dropWhile isSpacePy) [' ']
    else none
  | [] => none

/-- Rule `[\(\[\{]+(.*?)[\)\]\}]+`, replaced by the captured group `\1`:
strip one layer of bracket punctuation, keeping the inner text. -/
def tryBracketUnwrap (_ : Option Char) (l : List Char) :
    Option (List Char × Char × List Char) :=
  let ops := l.takeWhile isOpener
  if ops.isEmpty then none
  else
    match innerToCloser (l.drop ops.length) with
    | some (inner, rest1) =>
      mkMatch l (rest1.drop (rest1.takeWhile isCloser).length) inner
    | none => none

/-- Rule `\s+`, replaced by a single space: collapse whitespace runs. -/
def tryWsRun (_ : Option Char) (l : List Char) :
    Option (List Char × Char × List Char) :=
  match l with
  | c :: _ =>
    if isSpacePy c then mkMatch l (l.dropWhile isSpacePy) [' ']
    else none
  | [] => none

/-- Trailing-junk characters `[\s\-–:]`. -/
def isTrailJunk (c : Char) : Bool :=
  isSpacePy c || c = '-' || c = '–' || c = ':'

/-- Rule `[\s\-–:]+$`, removed: the maximal trailing run of separators and
punctuation (equivalent to dropping the trailing run, since the match must
reach the end of the string). -/
def dropTrailing (l : List Char) : List Char :=
  (l.reverse.dropWhile isTrailJunk).reverse

/-- `custom_clean_title` from `src/app/matching.py` lines 20-67: the ordered
chain of text-rewrite rules followed by a final `.strip()`. -/
def custom_clean_title (text : String) : String :=
  let l1 := subScan tryBracketFeat text.data
  let l2 := subScan tryInlineFeat l1
  let l3 := subScan tryParenRemaster l2
  let l4 := subScan tryBareRemaster l3
  let l5 := subScan tryVersionWords l4
  let l6 := subScan tryDashFrom l5
  let l7 := subScan (tryParenFrom '(' ')') l6
  let l8 := subScan (tryParenFrom '[' ']') l7
  let l9 := subScan tryDashSpace l8
  let l10 := subScan tryBracketUnwrap l9
  let l11 := subScan tryWsRun l10
  String.mk (stripList isSpacePy (dropTrailing l11))

/-! ### External `music_metadata_filter` functions

These are imported from a third-party package; their code is not part of this
repository, so they are modelled from the spec (§4.2). -/

/-- Modelled from the spec: the external `remove_feature` filter strips
"feat./ft./featuring …" fragments, bracketed or inline. -/
def remove_feature (text : String) : String :=
  String.mk (subScan tryInlineFeat (subScan tryBracketFeat text.data))

/-- Modelled from the spec: the external `remove_remastered` filter strips
remaster qualifiers (bracketed or bare "remaster/remastered" tags). -/
def remove_remastered (text : String) : String :=
  String.mk (subScan tryBareRemaster (subScan tryParenRemaster text.data))

/-- Substring test on character lists (Python `pat in text`). -/
def hasInfix (pat : List Char) : List Char → Bool
  | [] => pat.isEmpty
  | c :: t => pat.isPrefixOf (c :: t) || hasInfix pat t

/-- Remove a parenthesized fragment whose (case-folded) content contains one
of the keywords. -/
def tryParenContaining (kws : List (List Char)) (_ : Option Char)
    (l : List Char) : Option (List Char × Char × List Char) :=
  match l with
  | '(' :: t =>
    match innerToCloser t with
    | some (inner, rest) =>
      if kws.any (fun kw => hasInfix kw (lowerList inner)) then mkMatch l rest []
      else none
    | none => none
  | _ => none

/-- Modelled from the spec: the external `remove_version` filter strips
"(… version)"-class qualifiers. -/
def remove_version (text : String) : String :=
  String.mk (subScan (tryParenContaining ["version".data]) text.data)

/-- Modelled from the spec: the external `remove_reissue` filter strips
reissue qualifiers ("Deluxe Edition" class annotations). -/
def remove_reissue (text : String) : String :=
  String.mk (subScan
    (tryParenContaining ["deluxe".data, "reissue".data, "re-issue".data,
      "edition".data, "expanded".data]) text.data)

/-! ### `cleanse_track`, keyword predicates and `compare_results`
(src/app/matching.py lines 70-144, src/app/constants.py lines 200-211) -/

/-- `cleanse_track` from `src/app/matching.py` lines 70-83.  The Python
fall-through branch for other field values is unreachable with the
four-valued field type. -/
def cleanse_track (text : String) (field : TrackFindType) : String :=
  match field with
  | TrackFindType.ARTIST => remove_feature text
  | TrackFindType.ARTISTS_ALL => remove_feature text
  | TrackFindType.TITLE =>
    custom_clean_title (remove_version (remove_remastered (remove_feature text)))
  | TrackFindType.ALBUM => remove_reissue (remove_version (remove_remastered text))

/-- `KEYWORDS_SONG_COLLECTIONS` from `src/app/constants.py` lines 200-209. -/
def KEYWORDS_SONG_COLLECTIONS : List String :=
  ["greatest hits", "best of", "anthology", "compilation", "collection",
   "box set", "hits", "classics"]

/-- `KEYWORDS_SONG_EDITS` from `src/app/constants.py` line 211. -/
def KEYWORDS_SONG_EDITS : List String :=
  ["remix", "edit", "slowed", "instrumental", "live"]

/-- `is_song_edit` from `src/app/matching.py` lines 86-90. -/
def is_song_edit (title : String) : Bool :=
  KEYWORDS_SONG_EDITS.any (fun kw => hasInfix kw.data (casefold title).data)

/-- `is_collection` from `src/app/matching.py` lines 93-97. -/
def is_collection (title : String) : Bool :=
  KEYWORDS_SONG_COLLECTIONS.any (fun kw => hasInfix kw.data (casefold title).data)

/-- Split a character list at every separator satisfying `p`, keeping empty
pieces. -/
def splitPred (p : Char → Bool) : List Char → List (List Char)
  | [] => [[]]
  | c :: t =>
    match splitPred p t, p c with
    | r, true => [] :: r
    | h :: t2, false => (c :: h) :: t2
    | [], false => [[c]]

/-- Python `str.split(";")`: split at every semicolon, keeping empty
pieces. -/
def splitSemi (s : String) : List String :=
  (splitPred (fun c => c == ';') s.data).map String.mk

/-- Python `str.split()`: split on whitespace, discarding empty pieces. -/
def splitWs (s : String) : List String :=
  ((splitPred isSpacePy s.data).map String.mk).filter (fun w => w ≠ "")

/-- The token-overlap test of `compare_results` lines 132-142: some pair of
parts, each of length at least 3, where one is a substring of the other.
(The Python sets and the early return do not change the truth value.) -/
def substring_pair_match (sparts fparts : List String) : Bool :=
  sparts.any (fun a => fparts.any (fun b =>
    3 ≤ a.length && 3 ≤ b.length && (hasInfix a.data b.data || hasInfix b.data a.data)))

/-- `compare_results` from `src/app/matching.py` lines 100-144.  The Python
code computes the cleansed and normalized strings once; here the
subexpressions are repeated verbatim, which is equivalent for pure
functions. -/
def compare_results (search found : String) (field : TrackFindType) : MatchType :=
  if normalize (cleanse_track search field) = normalize (cleanse_track found field) then
    MatchType.EXACT
  else if field = TrackFindType.ALBUM ∧ is_collection (cleanse_track found field) then
    MatchType.SKIP
  else if (normalize (cleanse_track search field)).length < 3
      ∨ (normalize (cleanse_track found field)).length < 3 then
    MatchType.SKIP
  else if substring_pair_match
      (if field = TrackFindType.ARTISTS_ALL
       then splitSemi (normalize (cleanse_track search field))
       else splitWs (normalize (cleanse_track search field)))
      (if field = TrackFindType.ARTISTS_ALL
       then splitSemi (normalize (cleanse_track found field))
       else splitWs (normalize (cleanse_track found field))) then
    MatchType.SUBSTRING
  else MatchType.NONE

/-! ### `format_text_for_os` (src/app/utils.py lines 15-23) -/

/-- `WINDOWS_DISALLOWED_CHARS` from `src/app/constants.py` line 147. -/
def WINDOWS_DISALLOWED_CHARS : String := "<>:\"/\\|?*\u0000"

/-- The loop `for char in WINDOWS_DISALLOWED_CHARS: text = text.replace(char, "")`:
each `replace(char, "")` removes every occurrence, i.e. filters it out. -/
def removeChars (ds : List Char) (l : List Char) : List Char :=
  ds.foldl (fun acc c => acc.filter (fun x => !(x == c))) l

/-- `format_text_for_os` from `src/app/utils.py` lines 15-23, with the
module-level configuration flag `CONFIG_WINDOWS_SAFE_FILE_NAMES` passed as a
parameter.  `text.strip(" .")` strips leading and trailing spaces and dots. -/
def format_text_for_os (windowsSafe : Bool) (text : String) : String :=
  if !windowsSafe then text
  else String.mk (stripList (fun c => c == ' ' || c == '.')
    (removeChars WINDOWS_DISALLOWED_CHARS.data text.data))

/-! ### `_process_track` skip logic
(src/app/spotify_tidal_downloader.py lines 163-189, 812-826)

The caches are modelled as functions from `full_title` keys: the completed
map by whether a key is present (`_is_downloaded` only tests presence), the
failed map by `String → Option (Option String)` — `none` for an absent key,
`some e` for a cached entry whose optional `"reason"` field is `e` (the
program always writes reason dicts; an entry without the field behaves like
the falsy empty dict in `_fail_reason`). -/

/-- `ERROR_RATE_LIMITED` from `src/app/constants.py` lines 219-221. -/
def ERROR_RATE_LIMITED : String :=
  "Failed to fetch album metadata after matching, try again next run."

/-- `_is_failed`: the key has an entry in the failed map. -/
def is_failed (failed : String → Option (Option String)) (k : String) : Bool :=
  (failed k).isSome

/-- `_fail_reason` (lines 820-826): if the entry exists and is truthy,
return its `"reason"` field, else `None`. -/
def fail_reason (failed : String → Option (Option String)) (k : String) :
    Option String :=
  match failed k with
  | some e => if e.isSome then e else none
  | none => none

/-- The three outcomes of `_process_track` for a track: skip because
downloaded, skip because previously failed, or proceed to search/enqueue. -/
inductive TrackAction where
  | skipDownloaded
  | skipFailed
  | queueForDownload
deriving DecidableEq, Repr

/-- `_process_track` (lines 163-189): skip a downloaded track; otherwise
skip when retry-failed is off, the track is cached as failed and the
recorded reason is not the rate-limit marker (the Python comparison
`None != ERROR_RATE_LIMITED` is true); otherwise queue it for search and
download. -/
def process_track (retryFailed : Bool) (completed : String → Bool)
    (failed : String → Option (Option String)) (k : String) : TrackAction :=
  if completed k then TrackAction.skipDownloaded
  else if retryFailed = false ∧ is_failed failed k = true
      ∧ fail_reason failed k ≠ some ERROR_RATE_LIMITED then TrackAction.skipFailed
  else TrackAction.queueForDownload

/-- Concrete failed map used by the C6 witness: key "a" failed with reason
"boom". -/
def wfailedA : String → Option (Option String) :=
  fun x => if x = "a" then some (some "boom") else none

/-! ### The candidate loop of `_match_track`
(src/app/spotify_tidal_downloader.py lines 348-417)

Only the fields inspected by the loop are modelled.  A `TidalTrack` models a
constructed `TidalTrackData`: its `title` already carries the appended
"(version)" suffix when the raw item has one.  The loop either `break`s with
a chosen candidate (`matched = True`) or falls through with no match; the
network calls made after a candidate is accepted are outside the selection
logic. -/

/-- The fields of `SpotifyTrackData` (src/app/types.py lines 60-67) used by
the matching loop. -/
structure SpotifyTrack where
  title : String
  artist : String
  artists : List String
  album : String
deriving DecidableEq, Repr

/-- The fields of a constructed `TidalTrackData` (src/app/types.py lines
70-87) used by the matching loop. -/
structure TidalTrack where
  title : String
  artist : String
  artists : List String
  album : String
deriving DecidableEq, Repr

/-- The "all artists" comparison (lines 378-384): computed only when both
sides have more than one artist, else `NONE`. -/
def artistsAllMatch (sp : SpotifyTrack) (t : TidalTrack) : MatchType :=
  if 1 < sp.artists.length ∧ 1 < t.artists.length then
    compare_results (String.intercalate ";" sp.artists)
      (String.intercalate ";" t.artists) TrackFindType.ARTISTS_ALL
  else MatchType.NONE

/-- The "single" check (lines 399-404): either side's cleansed title equals
its own cleansed album, case-folded. -/
def isSingle (sp : SpotifyTrack) (t : TidalTrack) : Bool :=
  (casefold (cleanse_track sp.title TrackFindType.TITLE)
    == casefold (cleanse_track sp.album TrackFindType.TITLE))
  || (casefold (cleanse_track t.title TrackFindType.TITLE)
    == casefold (cleanse_track t.album TrackFindType.TITLE))

/-- The candidate loop of `_match_track` (lines 356-414): edit filter, title
filter, artist filter, fast accept on exact title and exact artist, album
filter relaxed for singles, otherwise accept.  Returns the first accepted
candidate, or `none` when every candidate is rejected. -/
def match_track_select (sp : SpotifyTrack) : List TidalTrack → Option TidalTrack
  | [] => none
  | t :: rest =>
    if is_song_edit sp.title = false ∧ is_song_edit t.title = true then
      match_track_select sp rest
    else if compare_results sp.title t.title TrackFindType.TITLE
        = MatchType.NONE then
      match_track_select sp rest
    else if compare_results sp.artist t.artist TrackFindType.ARTIST
          = MatchType.NONE
        ∧ artistsAllMatch sp t = MatchType.NONE then
      match_track_select sp rest
    else if compare_results sp.title t.title TrackFindType.TITLE
          = MatchType.EXACT
        ∧ (compare_results sp.artist t.artist TrackFindType.ARTIST
            = MatchType.EXACT
           ∨ artistsAllMatch sp t = MatchType.EXACT) then
      some t
    else if compare_results sp.album t.album TrackFindType.ALBUM
          = MatchType.NONE
        ∧ isSingle sp t = false then
      match_track_select sp rest
    else some t

/-- C7 existential input: a source track whose title is a song edit
("remix") and which is its own single (title = album). -/
def c7src : SpotifyTrack :=
  { title := "songname remix", artist := "abcd", artists := ["abcd"],
    album := "songname remix" }

/-- C7 existential input: a non-edit candidate for `c7src`. -/
def c7cand : TidalTrack :=
  { title := "songname", artist := "abcd", artists := ["abcd"],
    album := "whatever" }

/-- C7 witness input: a non-edit source track. -/
def c7wsrc : SpotifyTrack :=
  { title := "songname", artist := "abcd", artists := ["abcd"],
    album := "songname" }

/-- C7 witness input: a matching non-edit candidate for `c7wsrc`. -/
def c7wcand : TidalTrack :=
  { title := "songname", artist := "abcd", artists := ["abcd"],
    album := "songname" }

/-! ### A transition system for the cache mutations of one run
(src/app/spotify_tidal_downloader.py lines 68-83, 163-189, 255-308,
437-462, 537-600)

State of a run: the completed cache (key presence), the failed cache (the
`"reason"` of each entry), the download queue (the `full_title`s of queued
jobs) and the `full_title`s of the playlist rows not yet consumed by the
sequential resolution loop of `run` (line 79).  Playlist rows with equal
artist and title yield equal `full_title`s, so `remaining` may contain
duplicates.

Transitions are the cache-affecting events, with the guards the code checks:

* `skip` — `_process_track` returns without mutating anything (lines
  172-177 and 180-187); the guards of those branches are dropped, which only
  adds behaviours.
* `resolveFail` — the search exhausts all queries and `_cache_failed_song`
  records the failure unless an entry exists (lines 306, 437-442); reached
  only when the track was not in the completed cache (line 172).
* `resolveSuccess` — a match is found: the key is deleted from the failed
  cache if present (lines 299-302) and the job is put on the queue
  (lines 227-232); reached only when the track was not in the completed
  cache (line 172).
* `workerSuccess` — a worker finishes a job and caches the completed
  download (lines 573-585, 444-462); any queued job may be the one that
  finishes.
* `workerFail` — a worker's download or post-download step fails and the
  failed entry is written **unconditionally** (lines 586-600).

Workers run concurrently with the sequential resolution loop: every network
call and retry sleep is a suspension point, so worker steps may interleave
between any two resolution steps and complete in any order.  The check
`_is_downloaded` and the later queue insertion of the same track are
separated by awaits; for the runs considered by the invariant theorems
(duplicate-free playlists) the completed flag of a key cannot change between
its check and its enqueue, so modelling them as one step is faithful there,
while the counterexample traces use only schedules the event loop can
realize. -/

/-- The cache-relevant state of one run. -/
structure RunState where
  completed : String → Bool
  failed : String → Option String
  queue : List String
  remaining : List String

/-- `self.completed_downloads[k] = entry` (key presence only). -/
def setKey (f : String → Bool) (k : String) : String → Bool :=
  fun x => if x = k then true else f x

/-- `del self.failed_downloads[k]`. -/
def eraseKey (f : String → Option String) (k : String) : String → Option String :=
  fun x => if x = k then none else f x

/-- `self.failed_downloads[k] = reason` (unconditional dictionary write). -/
def putKey (f : String → Option String) (k r : String) : String → Option String :=
  fun x => if x = k then some r else f x

/-- `_cache_failed_song` (lines 437-442): record the failure reason unless
an entry already exists. -/
def cache_failed_song (f : String → Option String) (k r : String) :
    String → Option String :=
  if (f k).isSome then f else putKey f k r

/-- One cache-affecting event of a run (see the section comment). -/
inductive Step : RunState → RunState → Prop
  | skip (s : RunState) (k : String) (rest : List String) :
      s.remaining = k :: rest →
      Step s ⟨s.completed, s.failed, s.queue, rest⟩
  | resolveFail (s : RunState) (k : String) (rest : List String) (r : String) :
      s.remaining = k :: rest → s.completed k = false →
      Step s ⟨s.completed, cache_failed_song s.failed k r, s.queue, rest⟩
  | resolveSuccess (s : RunState) (k : String) (rest : List String) :
      s.remaining = k :: rest → s.completed k = false →
      Step s ⟨s.completed, eraseKey s.failed k, s.queue ++ [k], rest⟩
  | workerSuccess (s : RunState) (k : String) (q1 q2 : List String) :
      s.queue = q1 ++ k :: q2 →
      Step s ⟨setKey s.completed k, s.failed, q1 ++ q2, s.remaining⟩
  | workerFail (s : RunState) (k : String) (q1 q2 : List String) (r : String) :
      s.queue = q1 ++ k :: q2 →
      Step s ⟨s.completed, putKey s.failed k r, q1 ++ q2, s.remaining⟩

/-- States reachable by a sequence of run events. -/
def Reachable : RunState → RunState → Prop := Relation.ReflTransGen Step

/-- The inductive invariant of duplicate-free runs: the caches are mutually
exclusive, queued keys are in neither cache, the queue is duplicate-free,
queued keys are no longer pending, and the pending rows are duplicate-free. -/
structure Inv (s : RunState) : Prop where
  excl : ∀ k, s.completed k = true → s.failed k = none
  qComp : ∀ k, k ∈ s.queue → s.completed k = false
  qFail : ∀ k, k ∈ s.queue → s.failed k = none
  qNodup : s.queue.Nodup
  qRem : ∀ k, k ∈ s.queue → k ∉ s.remaining
  remNodup : s.remaining.Nodup

/-- A run start state: caches loaded from disk (assumed mutually exclusive),
empty queue, pending playlist rows with duplicate-free keys. -/
def dupInit : RunState :=
  { completed := fun _ => false, failed := fun _ => none,
    queue := [], remaining := ["k", "k"] }

/-- After resolving the first duplicate row of `dupInit` (enqueue "k"). -/
def dupS1 : RunState :=
  ⟨dupInit.completed, eraseKey dupInit.failed "k", dupInit.queue ++ ["k"], ["k"]⟩

/-- After resolving the second duplicate row (enqueue "k" again). -/
def dupS2 : RunState :=
  ⟨dupS1.completed, eraseKey dupS1.failed "k", dupS1.queue ++ ["k"], []⟩

/-- After one worker downloads "k" successfully. -/
def dupS3 : RunState := ⟨setKey dupS2.completed "k", dupS2.failed, ["k"], []⟩

/-- After the other worker fails its copy of "k": both caches now hold "k". -/
def dupS4 : RunState :=
  ⟨dupS3.completed, putKey dupS3.failed "k" "download failed", [], []⟩

/-- After one worker fails its copy of "k" with the first reason. -/
def dupF3 : RunState :=
  ⟨dupS2.completed, putKey dupS2.failed "k" "reason one", ["k"], []⟩

/-- After the other worker fails with a second reason, overwriting the
first. -/
def dupF4 : RunState :=
  ⟨dupF3.completed, putKey dupF3.failed "k" "reason two", [], []⟩

/-- Trivial start state for the C2 witness. -/
def wInit : RunState :=
  { completed := fun _ => false, failed := fun _ => none,
    queue := [], remaining := [] }

/-- Start state for the C5 witness: key "a" failed with reason "z", one
pending row "a". -/
def w5Init : RunState :=
  { completed := fun _ => false,
    failed := fun x => if x = "a" then some "z" else none,
    queue := [], remaining := ["a"] }

end App

namespace App

/-! ## Theorems for claim C1 -/

/-- C1 counterexample: with the sync policy enabled, an **empty** completed
map and a non-empty failed map whose key is no longer in the playlist,
`_sync_tracks` returns early and leaves the stale key in the failed map,
so the failed key set is not the intersection with the playlist keys
(which would be empty). -/
theorem c1_counterexample :
    ((sync_tracks true ([] : List (String × String)) [("k", "r")] ["other"]).2
       = [("k", "r")])
    ∧ ¬ ("k" ∈ (["other"] : List String)) := by
  constructor
  · rfl
  · decide

/-- C1 (amended): provided the initial completed map is non-empty, after
`_sync_tracks` with the sync policy enabled, the key set of the completed map
and the key set of the failed map each equal the intersection of their prior
key sets with the current playlist's `full_title` keys.  (When the completed
map is empty the operation leaves both maps unchanged.) -/
theorem c1_sync_keyset {α β : Type}
    (completed : List (String × α)) (failed : List (String × β))
    (current : List String) (h : completed ≠ []) (k : String) :
    (k ∈ ((sync_tracks true completed failed current).1.map Prod.fst ) ↔
       k ∈ completed.map Prod.fst ∧ k ∈ current)
    ∧ (k ∈ ((sync_tracks true completed failed current).2.map Prod.fst ) ↔
       k ∈ failed.map Prod.fst ∧ k ∈ current) := by
  have hne : completed.isEmpty = false := by
    cases completed with
    | nil => exact absurd rfl h
    | cons a l => rfl
  unfold sync_tracks
  rw [hne]
  simp only [Bool.false_or, Bool.not_true, if_neg (by decide : ¬ (false = true))]
  constructor
  · constructor
    · intro hk
      rcases List.mem_map.mp hk with ⟨kv, hkv, hfst⟩
      rcases List.mem_filter.mp hkv with ⟨hmem, helem⟩
      subst hfst
      exact ⟨List.mem_map.mpr ⟨kv, hmem, rfl⟩, (List.elem_iff).mp helem⟩
    · rintro ⟨hk, hcur⟩
      rcases List.mem_map.mp hk with ⟨kv, hkv, hfst⟩
      subst hfst
      exact List.mem_map.mpr
        ⟨kv, List.mem_filter.mpr ⟨hkv, (List.elem_iff).mpr hcur⟩, rfl⟩
  · constructor
    · intro hk
      rcases List.mem_map.mp hk with ⟨kv, hkv, hfst⟩
      rcases List.mem_filter.mp hkv with ⟨hmem, helem⟩
      subst hfst
      exact ⟨List.mem_map.mpr ⟨kv, hmem, rfl⟩, (List.elem_iff).mp helem⟩
    · rintro ⟨hk, hcur⟩
      rcases List.mem_map.mp hk with ⟨kv, hkv, hfst⟩
      subst hfst
      exact List.mem_map.mpr
        ⟨kv, List.mem_filter.mpr ⟨hkv, (List.elem_iff).mpr hcur⟩, rfl⟩

/-! ## Shared lemmas about the character model and stripping -/

/-- A successful association-list lookup comes from a member pair. -/
theorem lookup_mem {α β : Type} [BEq α] [LawfulBEq α] :
    ∀ {l : List (α × β)} {a : α} {b : β}, l.lookup a = some b → (a, b) ∈ l := by
  intro l
  induction l with
  | nil => intro a b h; simp [List.lookup] at h
  | cons x t ih =>
    intro a b h
    rw [List.lookup] at h
    by_cases hx : a == x.1
    · rw [hx] at h
      simp only [Option.some.injEq] at h
      have := eq_of_beq hx
      subst this
      subst h
      exact List.mem_cons_self _ _
    · rw [Bool.not_eq_true] at hx
      rw [hx] at h
      exact List.mem_cons_of_mem _ (ih h)

/-- Closure law: every character of the decomposition of a lowercased
character is a combining mark or fixed by both primitives. -/
theorem goodList_nfd_lower (c : Char) : goodList (nfdChar (lowerChar c)) = true := by
  cases hl : lowerMap.lookup c with
  | some v =>
    have hv : (c, v) ∈ lowerMap := lookup_mem hl
    have hall : ∀ p ∈ lowerMap, goodList (nfdChar p.2) = true := by decide
    have hc : lowerChar c = v := by simp [lowerChar, hl]
    rw [hc]
    exact hall (c, v) hv
  | none =>
    have hc : lowerChar c = c := by simp [lowerChar, hl]
    rw [hc]
    cases hn : nfdMap.lookup c with
    | some ds =>
      have hd : (c, ds) ∈ nfdMap := lookup_mem hn
      have hall : ∀ p ∈ nfdMap, goodList p.2 = true := by decide
      have hx : nfdChar c = ds := by simp [nfdChar, hn]
      rw [hx]
      exact hall (c, ds) hd
    | none =>
      have hx : nfdChar c = [c] := by simp [nfdChar, hn]
      rw [hx]
      simp [goodList, charFixed, hc, hx]

/-- Every character surviving `remove_accents ∘ lower` is fixed by the
normalization primitives and is not a combining mark. -/
theorem raList_lower_fixed {c : Char} {l : List Char}
    (h : c ∈ raList (lowerList l)) :
    lowerChar c = c ∧ nfdChar c = [c] ∧ isMn c = false := by
  unfold raList lowerList at h
  rcases List.mem_filter.mp h with ⟨hmem, hmn⟩
  rcases List.mem_flatMap.mp hmem with ⟨d, hd, hcd⟩
  rcases List.mem_map.mp hd with ⟨e, _, hde⟩
  subst hde
  have hmn' : isMn c = false := by simpa using hmn
  have hg := goodList_nfd_lower e
  unfold goodList at hg
  have hone := (List.all_eq_true.mp hg) c hcd
  rw [hmn'] at hone
  simp only [Bool.false_or, charFixed, Bool.and_eq_true, beq_iff_eq] at hone
  exact ⟨hone.1, hone.2, hmn'⟩

/-- Lowercasing fixes a list of fixed characters. -/
theorem lowerList_fixed {l : List Char} (h : ∀ c ∈ l, lowerChar c = c) :
    lowerList l = l := by
  induction l with
  | nil => rfl
  | cons c t ih =>
    have hc := h c (List.mem_cons_self c t)
    have ht := ih (fun x hx => h x (List.mem_cons_of_mem c hx))
    simp only [lowerList, List.map_cons, hc]
    simpa [lowerList] using ht

/-- `remove_accents` fixes a list of decomposition-fixed, non-mark
characters. -/
theorem raList_fixed {l : List Char}
    (h : ∀ c ∈ l, nfdChar c = [c] ∧ isMn c = false) : raList l = l := by
  induction l with
  | nil => rfl
  | cons c t ih =>
    have hc := h c (List.mem_cons_self c t)
    have ht := ih (fun x hx => h x (List.mem_cons_of_mem c hx))
    simp only [raList, List.flatMap_cons, hc.1, List.singleton_append,
      List.filter_cons, hc.2]
    simpa [raList] using ht

/-- The head of a `dropWhile` result fails the predicate. -/
theorem head?_dropWhile_not {α : Type} {p : α → Bool} {y : List α} {a : α}
    (h : (y.dropWhile p).head? = some a) : p a = false := by
  have hne : y.dropWhile p ≠ [] := by
    intro hnil
    rw [hnil] at h
    exact Option.noConfusion h
  have hhead := List.head_dropWhile_not p y hne
  rw [List.head?_eq_head hne, Option.some.injEq] at h
  rwa [h] at hhead

/-- `dropWhile` is idempotent. -/
theorem dropWhile_idem {α : Type} (p : α → Bool) (l : List α) :
    (l.dropWhile p).dropWhile p = l.dropWhile p := by
  cases h : l.dropWhile p with
  | nil => rfl
  | cons a t =>
    have ha : p a = false := head?_dropWhile_not (y := l) (by rw [h]; rfl)
    rw [List.dropWhile_cons, ha]
    simp

/-- A list whose head fails the predicate is fixed by `dropWhile`. -/
theorem dropWhile_of_head_not {α : Type} {p : α → Bool} {l : List α}
    (h : ∀ a, l.head? = some a → p a = false) : l.dropWhile p = l := by
  cases l with
  | nil => rfl
  | cons a t =>
    rw [List.dropWhile_cons, h a rfl]
    simp

/-- `rstripList` is idempotent. -/
theorem rstripList_idem (p : Char → Bool) (l : List Char) :
    rstripList p (rstripList p l) = rstripList p l := by
  unfold rstripList
  rw [List.reverse_reverse, dropWhile_idem]

/-- `rstripList` produces a prefix of its input. -/
theorem rstripList_isPrefix (p : Char → Bool) (l : List Char) :
    ∃ u, rstripList p l ++ u = l := by
  rcases List.dropWhile_suffix (l := l.reverse) p with ⟨u, hu⟩
  refine ⟨u.reverse, ?_⟩
  unfold rstripList
  calc (l.reverse.dropWhile p).reverse ++ u.reverse
      = (u ++ l.reverse.dropWhile p).reverse := by rw [List.reverse_append]
    _ = l := by rw [hu, List.reverse_reverse]

/-- The left strip of an already-stripped list is a no-op, because the
right strip keeps the (predicate-failing) head. -/
theorem dropWhile_rstripList_dropWhile (p : Char → Bool) (l : List Char) :
    (rstripList p (l.dropWhile p)).dropWhile p = rstripList p (l.dropWhile p) := by
  apply dropWhile_of_head_not
  intro a ha
  rcases rstripList_isPrefix p (l.dropWhile p) with ⟨u, hu⟩
  cases hr : rstripList p (l.dropWhile p) with
  | nil => rw [hr] at ha; exact Option.noConfusion ha
  | cons b t =>
    rw [hr] at ha hu
    simp only [List.head?_cons, Option.some.injEq] at ha
    have hb : (l.dropWhile p).head? = some b := by
      rw [← hu]
      rfl
    rw [← ha]
    exact head?_dropWhile_not hb

/-- `stripList` is idempotent. -/
theorem stripList_idem (p : Char → Bool) (l : List Char) :
    stripList p (stripList p l) = stripList p l := by
  unfold stripList
  rw [dropWhile_rstripList_dropWhile, rstripList_idem]

/-- Members of a stripped list are members of the list. -/
theorem mem_of_mem_stripList {p : Char → Bool} {c : Char} {l : List Char}
    (h : c ∈ stripList p l) : c ∈ l := by
  unfold stripList rstripList at h
  rw [List.mem_reverse] at h
  have h2 := ((List.dropWhile_suffix _).sublist.subset) h
  rw [List.mem_reverse] at h2
  exact ((List.dropWhile_suffix _).sublist.subset) h2

/-- The head of a stripped list fails the predicate. -/
theorem stripList_head_not {p : Char → Bool} {l : List Char} {a : Char}
    (h : (stripList p l).head? = some a) : p a = false := by
  rcases rstripList_isPrefix p (l.dropWhile p) with ⟨u, hu⟩
  unfold stripList at h
  cases hr : rstripList p (l.dropWhile p) with
  | nil => rw [hr] at h; exact Option.noConfusion h
  | cons b t =>
    rw [hr] at h hu
    simp only [List.head?_cons, Option.some.injEq] at h
    have hb : (l.dropWhile p).head? = some b := by
      rw [← hu]
      rfl
    rw [← h]
    exact head?_dropWhile_not hb

/-- The last element of a stripped list fails the predicate. -/
theorem stripList_getLast_not {p : Char → Bool} {l : List Char} {a : Char}
    (h : (stripList p l).getLast? = some a) : p a = false := by
  unfold stripList rstripList at h
  rw [List.getLast?_reverse] at h
  exact head?_dropWhile_not h

/-! ## Theorems for claim C8 -/

/-- C8: `normalize` (lower-casing, diacritic removal via canonical
decomposition dropping combining marks, and whitespace trimming) is
idempotent: `normalize (normalize s) = normalize s` for every string. -/
theorem c8_normalize_idempotent (s : String) :
    normalize (normalize s) = normalize s := by
  show String.mk (stripList isSpacePy (raList (lowerList
        (String.mk (stripList isSpacePy (raList (lowerList s.data)))).data)))
      = String.mk (stripList isSpacePy (raList (lowerList s.data)))
  have hmem : ∀ c ∈ stripList isSpacePy (raList (lowerList s.data)),
      lowerChar c = c ∧ nfdChar c = [c] ∧ isMn c = false :=
    fun c hc => raList_lower_fixed (mem_of_mem_stripList hc)
  have h1 : lowerList (stripList isSpacePy (raList (lowerList s.data)))
      = stripList isSpacePy (raList (lowerList s.data)) :=
    lowerList_fixed (fun c hc => (hmem c hc).1)
  have h2 : raList (stripList isSpacePy (raList (lowerList s.data)))
      = stripList isSpacePy (raList (lowerList s.data)) :=
    raList_fixed (fun c hc => (hmem c hc).2)
  show String.mk (stripList isSpacePy (raList (lowerList
        (stripList isSpacePy (raList (lowerList s.data))))))
      = String.mk (stripList isSpacePy (raList (lowerList s.data)))
  rw [h1, h2, stripList_idem]

/-! ## Theorems for claim C3 -/

/-- C3 counterexample: for expected artist "A;B" and found artist "B" with
field `artists_all`, `compare_results` does **not** return `Substring` — the
found side normalizes to the single character "b", which trips the
shorter-than-3 guard before the token-overlap test. -/
theorem c3_counterexample :
    compare_results "A;B" "B" TrackFindType.ARTISTS_ALL ≠ MatchType.SUBSTRING := by
  decide

/-- C3 (amended): for expected artist "A;B" and found artist "B" with field
`artists_all`, `compare_results` returns the `Skip` classification (the found
artist normalizes to fewer than 3 characters). -/
theorem c3_artists_all_skip :
    compare_results "A;B" "B" TrackFindType.ARTISTS_ALL = MatchType.SKIP := by
  decide

/-! ## Theorems for claim C4 -/

/-- C4 counterexample: with source album "Greatest Hits" itself, comparing
against the candidate album "Greatest Hits" returns `Exact`, not `Skip` —
the equality test precedes the collection check, so the classification is
not `Skip` "regardless of what the source album is". -/
theorem c4_counterexample :
    compare_results "Greatest Hits" "Greatest Hits" TrackFindType.ALBUM
        = MatchType.EXACT
    ∧ MatchType.EXACT ≠ MatchType.SKIP := by
  exact ⟨by decide, by decide⟩

/-- C4 (amended): for every source album whose cleansed-and-normalized form
differs from "greatest hits", comparing it against the candidate album
"Greatest Hits" with field `album` returns the `Skip` classification (the
candidate side is a collection keyword). -/
theorem c4_album_collection_skip (s : String)
    (h : normalize (cleanse_track s TrackFindType.ALBUM) ≠ "greatest hits") :
    compare_results s "Greatest Hits" TrackFindType.ALBUM = MatchType.SKIP := by
  have hf : normalize (cleanse_track "Greatest Hits" TrackFindType.ALBUM)
      = "greatest hits" := by decide
  have hc : is_collection (cleanse_track "Greatest Hits" TrackFindType.ALBUM)
      = true := by decide
  unfold compare_results
  rw [hf, if_neg h, if_pos (⟨rfl, hc⟩ :
    TrackFindType.ALBUM = TrackFindType.ALBUM
      ∧ is_collection (cleanse_track "Greatest Hits" TrackFindType.ALBUM) = true)]

/-- C4 witness: the amended theorem applied at a concrete source album. -/
theorem c4_album_collection_skip_witness :
    normalize (cleanse_track "Abbey Road" TrackFindType.ALBUM) ≠ "greatest hits"
    ∧ compare_results "Abbey Road" "Greatest Hits" TrackFindType.ALBUM
        = MatchType.SKIP :=
  ⟨by decide, c4_album_collection_skip "Abbey Road" (by decide)⟩

/-! ## Theorems for claim C9 -/

/-- C9: `compare_results` is reflexive up to classification — for every
string and every valid field, comparing a string with itself yields `Exact`,
because both sides pass through the identical cleanse-then-normalize
pipeline before the equality test. -/
theorem c9_compare_reflexive (s : String) (field : TrackFindType) :
    compare_results s s field = MatchType.EXACT := by
  unfold compare_results
  rw [if_pos rfl]

/-! ## Theorems for claim C6 -/

/-- C6: for a track not present in the completed map, `_process_track` skips
it if and only if the retry-failed policy is disabled, the track is present
in the failed map, and its recorded reason is not the rate-limit marker;
consequently a failed entry carrying the rate-limit reason is always
re-attempted (queued) regardless of the retry-failed policy. -/
theorem c6_skip_iff (retryFailed : Bool) (completed : String → Bool)
    (failed : String → Option (Option String)) (k : String)
    (h : completed k = false) :
    ((process_track retryFailed completed failed k = TrackAction.skipFailed) ↔
      (retryFailed = false ∧ (failed k).isSome = true
        ∧ fail_reason failed k ≠ some ERROR_RATE_LIMITED))
    ∧ (fail_reason failed k = some ERROR_RATE_LIMITED →
        process_track retryFailed completed failed k
          = TrackAction.queueForDownload) := by
  unfold process_track is_failed
  rw [h, if_neg (by decide : ¬ (false = true))]
  by_cases hc : retryFailed = false ∧ (failed k).isSome = true
      ∧ fail_reason failed k ≠ some ERROR_RATE_LIMITED
  · rw [if_pos hc]
    exact ⟨⟨fun _ => hc, fun _ => rfl⟩, fun hr => (hc.2.2 hr).elim⟩
  · rw [if_neg hc]
    exact ⟨⟨fun hs => absurd hs (by decide), fun hcc => absurd hcc hc⟩,
      fun _ => rfl⟩

/-- C6 witness: the theorem applied at a concrete state — retry disabled,
key "a" failed with reason "boom", not downloaded. -/
theorem c6_skip_iff_witness :
    (process_track false (fun _ => false) wfailedA "a" = TrackAction.skipFailed) ↔
      (false = false ∧ (wfailedA "a").isSome = true
        ∧ fail_reason wfailedA "a" ≠ some ERROR_RATE_LIMITED) :=
  (c6_skip_iff false (fun _ => false) wfailedA "a" rfl).1

/-! ## Theorems for claim C10 -/

/-- Characters surviving `removeChars` are original characters not among the
removed ones. -/
theorem mem_removeChars {ds l : List Char} {c : Char}
    (h : c ∈ removeChars ds l) : c ∈ l ∧ c ∉ ds := by
  induction ds generalizing l with
  | nil => exact ⟨h, by simp⟩
  | cons d t ih =>
    unfold removeChars at h
    rw [List.foldl_cons] at h
    rcases ih h with ⟨hmem, hnot⟩
    rcases List.mem_filter.mp hmem with ⟨hl, hd⟩
    refine ⟨hl, ?_⟩
    intro hin
    rcases List.mem_cons.mp hin with h1 | h2
    · rw [h1] at hd
      simp at hd
    · exact hnot h2

/-- C10: with the windows-safe-file-names configuration enabled,
`format_text_for_os` returns a string containing none of the disallowed
characters and with no leading or trailing space or dot; with it disabled,
it returns the input unchanged. -/
theorem c10_format_text_for_os (text : String) :
    (format_text_for_os false text = text)
    ∧ (∀ c ∈ (format_text_for_os true text).data,
        c ∉ WINDOWS_DISALLOWED_CHARS.data)
    ∧ ((format_text_for_os true text).data.head? ≠ some ' ')
    ∧ ((format_text_for_os true text).data.head? ≠ some '.')
    ∧ ((format_text_for_os true text).data.getLast? ≠ some ' ')
    ∧ ((format_text_for_os true text).data.getLast? ≠ some '.') := by
  refine ⟨rfl, ?_, ?_, ?_, ?_, ?_⟩
  · intro c hc
    have hc' : c ∈ stripList (fun c => c == ' ' || c == '.')
        (removeChars WINDOWS_DISALLOWED_CHARS.data text.data) := hc
    exact (mem_removeChars (mem_of_mem_stripList hc')).2
  · intro hh
    have := stripList_head_not
      (p := fun c => c == ' ' || c == '.')
      (l := removeChars WINDOWS_DISALLOWED_CHARS.data text.data) hh
    simp at this
  · intro hh
    have := stripList_head_not
      (p := fun c => c == ' ' || c == '.')
      (l := removeChars WINDOWS_DISALLOWED_CHARS.data text.data) hh
    simp at this
  · intro hh
    have := stripList_getLast_not
      (p := fun c => c == ' ' || c == '.')
      (l := removeChars WINDOWS_DISALLOWED_CHARS.data text.data) hh
    simp at this
  · intro hh
    have := stripList_getLast_not
      (p := fun c => c == ' ' || c == '.')
      (l := removeChars WINDOWS_DISALLOWED_CHARS.data text.data) hh
    simp at this

/-- C10 witness: the theorem applied at a concrete string. -/
theorem c10_format_text_for_os_witness :
    format_text_for_os false " x<>.: " = " x<>.: " :=
  (c10_format_text_for_os " x<>.: ").1

/-! ## Shared lemmas for the run transition system -/

/-- Every run event preserves the inductive invariant. -/
theorem inv_step {s s' : RunState} (hs : Inv s) (hstep : Step s s') : Inv s' := by
  cases hstep with
  | skip k rest hrem =>
    refine ⟨hs.excl, hs.qComp, hs.qFail, hs.qNodup, ?_, ?_⟩
    · intro x hx hmem
      have := hs.qRem x hx
      rw [hrem] at this
      exact this (List.mem_cons_of_mem _ hmem)
    · have := hs.remNodup
      rw [hrem] at this
      exact this.of_cons
  | resolveFail k rest r hrem hcomp =>
    refine ⟨?_, hs.qComp, ?_, hs.qNodup, ?_, ?_⟩
    · intro x hx
      show (if (s.failed k).isSome then s.failed else putKey s.failed k r) x = none
      split
      · exact hs.excl x hx
      · show (if x = k then some r else s.failed x) = none
        by_cases hxk : x = k
        · subst hxk
          have hx' : s.completed x = true := hx
          rw [hcomp] at hx'
          exact absurd hx' (by decide)
        · rw [if_neg hxk]
          exact hs.excl x hx
    · intro x hxq
      have hxr := hs.qRem x hxq
      rw [hrem] at hxr
      have hxk : x ≠ k := fun he => hxr (he ▸ List.mem_cons_self k rest)
      show (if (s.failed k).isSome then s.failed else putKey s.failed k r) x = none
      split
      · exact hs.qFail x hxq
      · show (if x = k then some r else s.failed x) = none
        rw [if_neg hxk]
        exact hs.qFail x hxq
    · intro x hxq hmem
      have := hs.qRem x hxq
      rw [hrem] at this
      exact this (List.mem_cons_of_mem _ hmem)
    · have := hs.remNodup
      rw [hrem] at this
      exact this.of_cons
  | resolveSuccess k rest hrem hcomp =>
    have hkq : k ∉ s.queue := fun hk =>
      (hs.qRem k hk) (hrem ▸ List.mem_cons_self k rest)
    have hkrest : k ∉ rest := by
      have := hs.remNodup
      rw [hrem] at this
      exact (List.nodup_cons.mp this).1
    refine ⟨?_, ?_, ?_, ?_, ?_, ?_⟩
    · intro x hx
      show (if x = k then none else s.failed x) = none
      by_cases hxk : x = k
      · rw [if_pos hxk]
      · rw [if_neg hxk]
        exact hs.excl x hx
    · intro x hx
      have hx' : x ∈ s.queue ++ [k] := hx
      rcases List.mem_append.mp hx' with h1 | h2
      · exact hs.qComp x h1
      · show s.completed x = false
        rw [List.mem_singleton.mp h2]
        exact hcomp
    · intro x hx
      have hx' : x ∈ s.queue ++ [k] := hx
      show (if x = k then none else s.failed x) = none
      by_cases hxk : x = k
      · rw [if_pos hxk]
      · rw [if_neg hxk]
        rcases List.mem_append.mp hx' with h1 | h2
        · exact hs.qFail x h1
        · exact absurd (List.mem_singleton.mp h2) hxk
    · show (s.queue ++ [k]).Nodup
      rw [List.nodup_append]
      refine ⟨hs.qNodup, List.nodup_singleton k, ?_⟩
      intro x hx hmem
      rw [List.mem_singleton.mp hmem] at hx
      exact hkq hx
    · intro x hx hmem
      have hx' : x ∈ s.queue ++ [k] := hx
      rcases List.mem_append.mp hx' with h1 | h2
      · have := hs.qRem x h1
        rw [hrem] at this
        exact this (List.mem_cons_of_mem _ hmem)
      · rw [List.mem_singleton.mp h2] at hmem
        exact hkrest hmem
    · have := hs.remNodup
      rw [hrem] at this
      exact this.of_cons
  | workerSuccess k q1 q2 hq =>
    have hkq : k ∈ s.queue := by
      rw [hq]
      exact List.mem_append.mpr (Or.inr (List.mem_cons_self _ _))
    have hnd := hs.qNodup
    rw [hq] at hnd
    rcases List.nodup_cons.mp (List.nodup_middle.mp hnd) with ⟨hknotin, hq12nodup⟩
    have hmemq : ∀ x, x ∈ q1 ++ q2 → x ∈ s.queue := by
      intro x hx
      rw [hq]
      rcases List.mem_append.mp hx with h1 | h2
      · exact List.mem_append.mpr (Or.inl h1)
      · exact List.mem_append.mpr (Or.inr (List.mem_cons_of_mem _ h2))
    have hneq : ∀ x, x ∈ q1 ++ q2 → x ≠ k := by
      intro x hx he
      exact hknotin (he ▸ hx)
    refine ⟨?_, ?_, ?_, hq12nodup, ?_, hs.remNodup⟩
    · intro x hx
      have hx' : (if x = k then true else s.completed x) = true := hx
      by_cases hxk : x = k
      · subst hxk
        exact hs.qFail x hkq
      · rw [if_neg hxk] at hx'
        exact hs.excl x hx'
    · intro x hx
      show (if x = k then true else s.completed x) = false
      rw [if_neg (hneq x hx)]
      exact hs.qComp x (hmemq x hx)
    · intro x hx
      exact hs.qFail x (hmemq x hx)
    · intro x hx
      exact hs.qRem x (hmemq x hx)
  | workerFail k q1 q2 r hq =>
    have hkq : k ∈ s.queue := by
      rw [hq]
      exact List.mem_append.mpr (Or.inr (List.mem_cons_self _ _))
    have hnd := hs.qNodup
    rw [hq] at hnd
    rcases List.nodup_cons.mp (List.nodup_middle.mp hnd) with ⟨hknotin, hq12nodup⟩
    have hmemq : ∀ x, x ∈ q1 ++ q2 → x ∈ s.queue := by
      intro x hx
      rw [hq]
      rcases List.mem_append.mp hx with h1 | h2
      · exact List.mem_append.mpr (Or.inl h1)
      · exact List.mem_append.mpr (Or.inr (List.mem_cons_of_mem _ h2))
    have hneq : ∀ x, x ∈ q1 ++ q2 → x ≠ k := by
      intro x hx he
      exact hknotin (he ▸ hx)
    refine ⟨?_, ?_, ?_, hq12nodup, ?_, hs.remNodup⟩
    · intro x hx
      show (if x = k then some r else s.failed x) = none
      by_cases hxk : x = k
      · subst hxk
        have hx' : s.completed x = true := hx
        rw [hs.qComp x hkq] at hx'
        exact absurd hx' (by decide)
      · rw [if_neg hxk]
        exact hs.excl x hx
    · intro x hx
      exact hs.qComp x (hmemq x hx)
    · intro x hx
      show (if x = k then some r else s.failed x) = none
      rw [if_neg (hneq x hx)]
      exact hs.qFail x (hmemq x hx)
    · intro x hx
      exact hs.qRem x (hmemq x hx)

/-- The invariant holds in every reachable state. -/
theorem inv_reachable {s0 s : RunState} (h0 : Inv s0) (h : Reachable s0 s) :
    Inv s := by
  induction h with
  | refl => exact h0
  | tail _ hstep ih => exact inv_step ih hstep

/-- The invariant at a run start state: empty queue, duplicate-free pending
rows, mutually exclusive loaded caches. -/
theorem inv_start {s0 : RunState} (h0q : s0.queue = [])
    (h0rem : s0.remaining.Nodup)
    (h0excl : ∀ k, s0.completed k = true → s0.failed k = none) : Inv s0 := by
  refine ⟨h0excl, ?_, ?_, ?_, ?_, h0rem⟩
  · intro x hx
    rw [h0q] at hx
    exact absurd hx (List.not_mem_nil x)
  · intro x hx
    rw [h0q] at hx
    exact absurd hx (List.not_mem_nil x)
  · rw [h0q]
    exact List.nodup_nil
  · intro x hx
    rw [h0q] at hx
    exact absurd hx (List.not_mem_nil x)

/-! ## Theorems for claim C2 -/

/-- C2 counterexample: starting from empty caches and a playlist whose two
rows share the `full_title` "k" (duplicate rows are possible, and the code
checks `_is_downloaded` before its search awaits), the schedule
"resolve row 1, resolve row 2, worker 1 succeeds, worker 2 fails" reaches a
state where "k" is present in **both** the completed and the failed map. -/
theorem c2_counterexample :
    Reachable dupInit dupS4
    ∧ dupS4.completed "k" = true
    ∧ dupS4.failed "k" = some "download failed" := by
  refine ⟨?_, ?_, ?_⟩
  · exact Relation.ReflTransGen.tail
      (Relation.ReflTransGen.tail
        (Relation.ReflTransGen.tail
          (Relation.ReflTransGen.single
            (Step.resolveSuccess dupInit "k" ["k"] rfl rfl))
          (Step.resolveSuccess dupS1 "k" [] rfl rfl))
        (Step.workerSuccess dupS2 "k" [] ["k"] rfl))
      (Step.workerFail dupS3 "k" [] [] "download failed" rfl)
  · show setKey dupS2.completed "k" "k" = true
    simp [setKey]
  · show putKey dupS3.failed "k" "download failed" "k" = some "download failed"
    simp [putKey]

/-- C2 (amended): in a run whose playlist keys are duplicate-free and whose
loaded caches are mutually exclusive, at every reachable point no
`full_title` key is simultaneously present in the completed and the failed
map (with duplicate playlist rows this can be violated). -/
theorem c2_cache_exclusive (s0 s : RunState) (h0q : s0.queue = [])
    (h0rem : s0.remaining.Nodup)
    (h0excl : ∀ k, s0.completed k = true → s0.failed k = none)
    (h : Reachable s0 s) (k : String) :
    ¬ (s.completed k = true ∧ (s.failed k).isSome = true) := by
  have hinv : Inv s := inv_reachable (inv_start h0q h0rem h0excl) h
  rintro ⟨hc, hf⟩
  rw [hinv.excl k hc] at hf
  exact absurd hf (by decide)

/-- C2 witness: the amended theorem applied at a concrete run start. -/
theorem c2_cache_exclusive_witness :
    ¬ (wInit.completed "a" = true ∧ (wInit.failed "a").isSome = true) :=
  c2_cache_exclusive wInit wInit rfl List.nodup_nil
    (fun _ h => Bool.noConfusion h) Relation.ReflTransGen.refl "a"

/-! ## Theorems for claim C5 -/

/-- C5 counterexample: with the duplicate-keyed playlist of `dupInit`, both
copies of "k" are resolved and queued, worker 1 fails with "reason one",
then worker 2's failure write (which is unconditional, lines 586-600)
overwrites the existing entry with "reason two" — the first failure reason
does not win. -/
theorem c5_counterexample :
    Reachable dupInit dupF3
    ∧ dupF3.failed "k" = some "reason one"
    ∧ Step dupF3 dupF4
    ∧ dupF4.failed "k" = some "reason two"
    ∧ dupF4.failed "k" ≠ some "reason one" := by
  refine ⟨?_, ?_, ?_, ?_, ?_⟩
  · exact Relation.ReflTransGen.tail
      (Relation.ReflTransGen.tail
        (Relation.ReflTransGen.single
          (Step.resolveSuccess dupInit "k" ["k"] rfl rfl))
        (Step.resolveSuccess dupS1 "k" [] rfl rfl))
      (Step.workerFail dupS2 "k" [] ["k"] "reason one" rfl)
  · show putKey dupS2.failed "k" "reason one" "k" = some "reason one"
    simp [putKey]
  · exact Step.workerFail dupF3 "k" [] [] "reason two" rfl
  · show putKey dupF3.failed "k" "reason two" "k" = some "reason two"
    simp [putKey]
  · show putKey dupF3.failed "k" "reason two" "k" ≠ some "reason one"
    simp [putKey]

/-- C5 (amended): in a run whose playlist keys are duplicate-free and whose
loaded caches are mutually exclusive, an existing failed entry is never
overwritten by a later failure recording: any single event either keeps the
recorded reason unchanged or removes the entry (the documented deletion upon
a successful resolution).  The resolution-phase recording
(`_cache_failed_song`) is guarded and never overwrites; the unconditional
download-phase write only ever fires for keys absent from the failed map in
such runs.  (With duplicate playlist rows an overwrite is reachable.) -/
theorem c5_first_reason_wins (s0 s s' : RunState) (h0q : s0.queue = [])
    (h0rem : s0.remaining.Nodup)
    (h0excl : ∀ k, s0.completed k = true → s0.failed k = none)
    (hr : Reachable s0 s) (hstep : Step s s') (k r : String)
    (hk : s.failed k = some r) :
    s'.failed k = some r ∨ s'.failed k = none := by
  have hinv : Inv s := inv_reachable (inv_start h0q h0rem h0excl) hr
  cases hstep with
  | skip k2 rest hrem => exact Or.inl hk
  | resolveFail k2 rest r2 hrem hcomp =>
    show (cache_failed_song s.failed k2 r2) k = some r ∨ _
    unfold cache_failed_song
    split
    · exact Or.inl hk
    · next hns =>
      unfold putKey
      by_cases hkk : k = k2
      · subst hkk
        rw [hk] at hns
        exact absurd rfl hns
      · rw [if_neg hkk]
        exact Or.inl hk
  | resolveSuccess k2 rest hrem hcomp =>
    show (eraseKey s.failed k2) k = some r ∨ (eraseKey s.failed k2) k = none
    unfold eraseKey
    by_cases hkk : k = k2
    · rw [if_pos hkk]
      exact Or.inr rfl
    · rw [if_neg hkk]
      exact Or.inl hk
  | workerSuccess k2 q1 q2 hq => exact Or.inl hk
  | workerFail k2 q1 q2 r2 hq =>
    show (putKey s.failed k2 r2) k = some r ∨ _
    have hk2q : k2 ∈ s.queue := by
      rw [hq]
      exact List.mem_append.mpr (Or.inr (List.mem_cons_self _ _))
    by_cases hkk : k = k2
    · subst hkk
      rw [hinv.qFail k hk2q] at hk
      exact Option.noConfusion hk
    · unfold putKey
      rw [if_neg hkk]
      exact Or.inl hk

/-- C5 witness: the amended theorem applied at a concrete run start with an
existing failed entry and a skip event. -/
theorem c5_first_reason_wins_witness :
    (⟨w5Init.completed, w5Init.failed, w5Init.queue, []⟩ : RunState).failed "a"
        = some "z"
    ∨ (⟨w5Init.completed, w5Init.failed, w5Init.queue, []⟩ : RunState).failed "a"
        = none :=
  c5_first_reason_wins w5Init w5Init _ rfl (List.nodup_singleton "a")
    (fun _ h => Bool.noConfusion h) Relation.ReflTransGen.refl
    (Step.skip w5Init "a" [] rfl) "a" "z" (by simp [w5Init])

/-! ## Theorems for claim C7 -/

/-- C7: in the candidate loop of `_match_track`, a source track whose title
is not a song edit never accepts a candidate whose title is a song edit;
conversely, for some source track whose title is a song edit, a non-edit
candidate can be accepted. -/
theorem c7_edit_asymmetry :
    (∀ (found : List TidalTrack) (sp : SpotifyTrack) (t : TidalTrack),
        match_track_select sp found = some t →
        is_song_edit sp.title = false → is_song_edit t.title = false)
    ∧ (match_track_select c7src [c7cand] = some c7cand
       ∧ is_song_edit c7src.title = true
       ∧ is_song_edit c7cand.title = false) := by
  constructor
  · intro found
    induction found with
    | nil =>
      intro sp t h _
      rw [match_track_select] at h
      exact Option.noConfusion h
    | cons c rest ih =>
      intro sp t h hs
      rw [match_track_select] at h
      split_ifs at h with h1 h2 h3 h4 h5
      · exact ih sp t h hs
      · exact ih sp t h hs
      · exact ih sp t h hs
      · have hct := Option.some.inj h
        subst hct
        cases hedit : is_song_edit c.title
        · rfl
        · exact absurd ⟨hs, hedit⟩ h1
      · exact ih sp t h hs
      · have hct := Option.some.inj h
        subst hct
        cases hedit : is_song_edit c.title
        · rfl
        · exact absurd ⟨hs, hedit⟩ h1
  · exact ⟨by decide, by decide, by decide⟩

/-- C7 witness: the universal half applied at a concrete non-edit source
with an accepted concrete candidate. -/
theorem c7_edit_asymmetry_witness :
    is_song_edit c7wcand.title = false :=
  c7_edit_asymmetry.1 [c7wcand] c7wsrc c7wcand (by decide) (by decide)

/-- C1 witness: the amended theorem applied at a concrete input. -/
theorem c1_sync_keyset_witness :
    ([("a", "p")] : List (String × String)) ≠ []
    ∧ (("a" ∈ ((sync_tracks true [("a", "p")]
          ([("b", "r")] : List (String × String)) ["a"]).1.map Prod.fst ) ↔
        "a" ∈ ([("a", "p")] : List (String × String)).map Prod.fst
          ∧ "a" ∈ (["a"] : List String))
       ∧ ("a" ∈ ((sync_tracks true [("a", "p")]
          ([("b", "r")] : List (String × String)) ["a"]).2.map Prod.fst ) ↔
        "a" ∈ ([("b", "r")] : List (String × String)).map Prod.fst
          ∧ "a" ∈ (["a"] : List String))) :=
  ⟨by decide, c1_sync_keyset [("a", "p")] [("b", "r")] ["a"] (by decide) "a"⟩

end App
